import Mathlib

/-!
Verification of the ImgSearch (VisionQuest) repository.

Shallow embedding of the algorithmic core of the repository:
`src/imageProcessing.ts` (`calculatePHash`, `hammingDistance`),
`src/geminiService.ts` (`analyzeImageSemantics`, `searchByDescription`),
and `src/App.tsx` (`processFileList`, `handleSearch`, `findDuplicates`).

Modelling conventions.
JavaScript strings are Lean `String`s; per-character operations are spelled
out on the underlying `List Char`.  JavaScript numbers are modelled by `ℚ`
(all scores in the program are small exact decimals, so rational arithmetic
agrees with IEEE doubles on every comparison the claims mention).
Nondeterministic or external effects (`Math.random`, the Gemini network
calls, canvas thumbnail decoding, thrown exceptions) are explicit inputs:
a `Nat → Bool` random stream, oracle functions, and `Option`/`Except`
results.  `Array.prototype.sort` is called with the consistent comparator
`(a, b) => b.similarity - a.similarity` and is stable per the ECMAScript
specification; the result of a stable sort under a total preorder is
unique, so it is modelled by insertion sort, which is stable.
-/

attribute [local semireducible] Rat.add Rat.sub Rat.mul Rat.inv

/-- JS `String.prototype.toLowerCase`, per-character lowering
(the repository only ever lowercases ASCII file names and tags). -/
def jsToLower (s : String) : String := ⟨s.data.map Char.toLower⟩

/-- `matchAt sub hay` holds when `sub` occurs at the very start of `hay`. -/
def matchAt : List Char → List Char → Bool
  | [], _ => true
  | _ :: _, [] => false
  | a :: as, b :: bs => a = b && matchAt as bs

/-- JS `String.prototype.includes` on character lists:
`sub` occurs contiguously somewhere in `hay` (the empty string always occurs). -/
def jsIncludesL (hay sub : List Char) : Bool :=
  match hay with
  | [] => matchAt sub []
  | c :: t => matchAt sub (c :: t) || jsIncludesL t sub

/-- JS `String.prototype.includes`. -/
def jsIncludes (hay sub : String) : Bool := jsIncludesL hay.data sub.data

/-- JS `String.prototype.trim`: strip whitespace from both ends. -/
def jsTrim (s : String) : String :=
  ⟨((s.data.dropWhile Char.isWhitespace).reverse.dropWhile Char.isWhitespace).reverse⟩

/-- JS `String.prototype.startsWith`, used for the `image/` MIME filter. -/
def jsStartsWith (s p : String) : Bool := matchAt p.data s.data

/-- Accumulator-passing core of `String.prototype.split(',')`. -/
def splitCommaAux : List Char → List Char → List (List Char)
  | [], acc => [acc.reverse]
  | c :: rest, acc =>
    if c = ',' then acc.reverse :: splitCommaAux rest [] else splitCommaAux rest (c :: acc)

/-- JS `String.prototype.split(',')`; note `"".split(',')` is `[""]`. -/
def jsSplitComma (s : String) : List String := (splitCommaAux s.data []).map (fun l => ⟨l⟩)

/-- `hammingDistance` loop of `src/imageProcessing.ts` on char lists:
iterate over the indices of the first string and count positions whose
characters differ; an index beyond the second string reads JS `undefined`,
which differs from every character, hence counts. -/
def hammingAux : List Char → List Char → Nat
  | [], _ => 0
  | _ :: cs, [] => 1 + hammingAux cs []
  | c :: cs, d :: ds => (if c = d then 0 else 1) + hammingAux cs ds

/-- `hammingDistance(h1, h2)` from `src/imageProcessing.ts`. -/
def hammingDistance (h1 h2 : String) : Nat := hammingAux h1.data h2.data

/-- `calculatePHash(thumbnailDataUrl)` from `src/imageProcessing.ts`.
The source draws `Math.round(Math.random())` 64 times and joins the bits;
the stream of random draws is the explicit argument `randomBit`, and the
`thumbnailDataUrl` argument is ignored exactly as in the source. -/
def calculatePHash (randomBit : Nat → Bool) (_thumbnailDataUrl : String) : String :=
  ⟨(List.range 64).map (fun i => if randomBit i then '1' else '0')⟩

/-- `analyzeImageSemantics` from `src/geminiService.ts`.  The Gemini call is
the explicit input: `.error` models a thrown/failed request (caught, giving
`[]`), `.ok t` a response whose `.text` field is `t` (`none` coalesces to
`""` via `response.text || ""`).  The response text is split on commas and
each piece trimmed and lowercased; the source never truncates the list. -/
def analyzeImageSemantics (response : Except Unit (Option String)) : List String :=
  match response with
  | .error _ => []
  | .ok t => (jsSplitComma (t.getD (""))).map (fun s => jsToLower (jsTrim s))

/-- `ImageRecord` from `src/types.ts`. -/
structure ImageRecord where
  id : Option Nat := none
  fileName : String
  filePath : String := ""
  fileSize : Nat := 0
  lastModified : Nat := 0
  width : Nat := 0
  height : Nat := 0
  thumbnail : String := ""
  pHash : Option String := none
  tags : Option (List String) := none
deriving DecidableEq, Repr

/-- `SearchResult` from `src/types.ts` (similarity as an exact rational). -/
structure SearchResult where
  image : ImageRecord
  similarity : ℚ
deriving DecidableEq, Repr

/- ------------------------------------------------------------------ -/
/- C1, C6, C8: fingerprinting and tagging primitives                  -/
/- ------------------------------------------------------------------ -/

lemma hammingAux_self : ∀ l : List Char, hammingAux l l = 0
  | [] => rfl
  | c :: cs => by simp [hammingAux, hammingAux_self cs]

lemma hammingAux_comm : ∀ l1 l2 : List Char, l1.length = l2.length →
    hammingAux l1 l2 = hammingAux l2 l1
  | [], [], _ => rfl
  | [], _ :: _, h => by simp at h
  | _ :: _, [], h => by simp at h
  | c :: cs, d :: ds, h => by
    have hlen : cs.length = ds.length := by simpa using h
    by_cases hcd : c = d
    · simp [hammingAux, hcd, hammingAux_comm cs ds hlen]
    · have hdc : ¬ d = c := fun hh => hcd hh.symm
      simp [hammingAux, hcd, hdc, hammingAux_comm cs ds hlen]

lemma hammingAux_le : ∀ l1 l2 : List Char, hammingAux l1 l2 ≤ l1.length
  | [], _ => Nat.le_refl 0
  | c :: cs, [] => by
    have ih := hammingAux_le cs []
    simp only [hammingAux, List.length_cons]
    omega
  | c :: cs, d :: ds => by
    have ih := hammingAux_le cs ds
    by_cases hcd : c = d
    · simp only [hammingAux, if_pos hcd, List.length_cons]
      omega
    · simp only [hammingAux, if_neg hcd, List.length_cons]
      omega

/-- C6: for 64-bit fingerprints, `hammingDistance` is symmetric, its value
lies in `[0, 64]`, and the distance of a fingerprint to itself is `0`. -/
theorem hammingDistance_props (h1 h2 : String)
    (hl1 : h1.data.length = 64) (hl2 : h2.data.length = 64) :
    hammingDistance h1 h2 = hammingDistance h2 h1 ∧
      hammingDistance h1 h2 ≤ 64 ∧ hammingDistance h1 h1 = 0 := by
  refine ⟨hammingAux_comm h1.data h2.data (hl1.trans hl2.symm), ?_, hammingAux_self h1.data⟩
  calc hammingAux h1.data h2.data ≤ h1.data.length := hammingAux_le _ _
    _ = 64 := hl1

/-- All-zero 64-character hash used as a concrete fingerprint. -/
def hash64zeros : String := ⟨List.replicate 64 '0'⟩

/-- All-one 64-character hash used as a concrete fingerprint. -/
def hash64ones : String := ⟨List.replicate 64 '1'⟩

theorem hammingDistance_props_witness :
    hammingDistance hash64zeros hash64ones = hammingDistance hash64ones hash64zeros ∧
      hammingDistance hash64zeros hash64ones ≤ 64 ∧
      hammingDistance hash64zeros hash64zeros = 0 :=
  hammingDistance_props hash64zeros hash64ones (by decide) (by decide)

/-- C1: `calculatePHash` is not deterministic.  The source builds the hash
from fresh `Math.random()` draws and ignores its input, so two calls on the
identical thumbnail can disagree (here: an all-`0` draw versus an all-`1`
draw on the same input), while both results are 64-character bit strings.
The spec's §9 flags exactly this as a functional defect of the source. -/
theorem calculatePHash_not_deterministic :
    calculatePHash (fun _ => false) ("") ≠ calculatePHash (fun _ => true) ("") ∧
      (calculatePHash (fun _ => false) ("")).data.length = 64 ∧
      (calculatePHash (fun _ => true) ("")).data.length = 64 := by
  refine ⟨?_, by decide, by decide⟩
  decide

lemma Char.toNat_ofNat_of_small {n : Nat} (h : n < 55296) : (Char.ofNat n).toNat = n := by
  rw [Char.ofNat, dif_pos (Or.inl h)]
  rfl

lemma Char.toLower_idem (c : Char) : c.toLower.toLower = c.toLower := by
  simp only [Char.toLower]
  by_cases h : c.toNat ≥ 65 ∧ c.toNat ≤ 90
  · rw [if_pos h]
    have h32 : (Char.ofNat (c.toNat + 32)).toNat = c.toNat + 32 :=
      Char.toNat_ofNat_of_small (by omega)
    rw [if_neg (by rw [h32]; omega)]
  · rw [if_neg h, if_neg h]

lemma jsToLower_idem (s : String) : jsToLower (jsToLower s) = jsToLower s := by
  simp only [jsToLower, List.map_map]
  exact congrArg String.mk (List.map_congr_left (fun c _ => Char.toLower_idem c))

/-- C8 (amended): on any service failure `analyzeImageSemantics` returns the
empty list instead of throwing, and every returned keyword is lowercase
(fixed by lowercasing); the source does not enforce the length bound 5. -/
theorem analyzeImageSemantics_spec (response : Except Unit (Option String)) :
    (∀ u : Unit, response = .error u → analyzeImageSemantics response = []) ∧
      (∀ s ∈ analyzeImageSemantics response, jsToLower s = s) := by
  constructor
  · intro u hu
    rw [hu]
    rfl
  · intro s hs
    match response with
    | .error _ => simp [analyzeImageSemantics] at hs
    | .ok t =>
      simp only [analyzeImageSemantics, List.mem_map] at hs
      obtain ⟨piece, _, hpiece⟩ := hs
      rw [← hpiece]
      exact jsToLower_idem _

theorem analyzeImageSemantics_spec_witness : jsToLower ("cat") = "cat" :=
  (analyzeImageSemantics_spec (.ok (some ("Dog, Cat")))).2 ("cat") (by decide)

/-- C8 counterexample: the claim bounds the result by 5 keywords, but the
source never truncates; a service response with six comma-separated tokens
yields six keywords. -/
theorem analyzeImageSemantics_length_counterexample :
    (analyzeImageSemantics (.ok (some ("a,b,c,d,e,f")))).length = 6 ∧
      ¬ (analyzeImageSemantics (.ok (some ("a,b,c,d,e,f")))).length ≤ 5 := by
  constructor
  · decide
  · decide

/- ------------------------------------------------------------------ -/
/- Search: `handleSearch` from `src/App.tsx`                          -/
/- ------------------------------------------------------------------ -/

/-- Lexical score of one asset in `handleSearch`'s keyword pass:
`score += 0.8` when the lowercased file name contains the lowercased
query, `score += 1.0` when some lowercased tag contains it
(`img.tags?.some(...)`, so absent tags contribute nothing). -/
def lexScore (query : String) (img : ImageRecord) : ℚ :=
  (if jsIncludes (jsToLower img.fileName) (jsToLower query) then (4 : ℚ) / 5 else 0) +
    (if (img.tags.getD []).any (fun t => jsIncludes (jsToLower t) (jsToLower query)) then 1 else 0)

/-- The keyword pass of `handleSearch`: `images.forEach` pushing
`{ image, similarity: score }` whenever `score > 0`. -/
def lexicalPass (query : String) (images : List ImageRecord) : List SearchResult :=
  images.foldl
    (fun acc img =>
      if 0 < lexScore query img then acc ++ [⟨img, lexScore query img⟩] else acc)
    []

/-- `img.tags?.filter(t => relevantKeywords.includes(t)) || []`. -/
def overlapTags (keywords : List String) (img : ImageRecord) : List String :=
  (img.tags.getD []).filter (fun t => keywords.contains t)

/-- The Gemini fallback pass of `handleSearch`: push
`{ image, similarity: overlap.length / relevantKeywords.length }`
for every asset with nonempty tag overlap. -/
def semanticPass (keywords : List String) (images : List ImageRecord) : List SearchResult :=
  images.foldl
    (fun acc img =>
      if 0 < (overlapTags keywords img).length then
        acc ++ [⟨img, ((overlapTags keywords img).length : ℚ) / (keywords.length : ℚ)⟩]
      else acc)
    []

/-- `Array.from(new Set(images.flatMap(i => i.tags || [])))`: all tags in
collection order with duplicates removed, keeping first occurrences. -/
def allTagsDedup (images : List ImageRecord) : List String :=
  (images.flatMap (fun i => i.tags.getD [])).foldl
    (fun acc x => if x ∈ acc then acc else acc ++ [x]) []

/-- The ordering induced by the sort comparator
`(a, b) => b.similarity - a.similarity`: `a` may precede `b` exactly when
the comparator is `≤ 0` on `(a, b)`. -/
def simGE (a b : SearchResult) : Prop := b.similarity ≤ a.similarity

instance : DecidableRel simGE :=
  fun a b => inferInstanceAs (Decidable (b.similarity ≤ a.similarity))

instance : IsTotal SearchResult simGE :=
  ⟨fun a b => le_total b.similarity a.similarity⟩

instance : IsTrans SearchResult simGE :=
  ⟨fun _ _ _ hab hbc => le_trans hbc hab⟩

/-- `results.sort((a, b) => b.similarity - a.similarity)`: a stable
descending sort; modelled by (stable) insertion sort, whose output is the
unique stable sort guaranteed by the ECMAScript specification. -/
def jsSortResults (l : List SearchResult) : List SearchResult := List.insertionSort simGE l

/-- `handleSearch` from `src/App.tsx`, as a function of the semantic
query-expansion collaborator (`searchByDescription` from
`src/geminiService.ts`, an external network call modelled as the oracle
`expand`), the query, and the in-memory collection.  An all-whitespace
query clears the results; otherwise the keyword pass runs, the Gemini
fallback fires only when the keyword pass found nothing and the collection
has at least one tag, and the collected results are sorted descending. -/
def handleSearch (expand : String → List String → List String)
    (searchQuery : String) (images : List ImageRecord) : List SearchResult :=
  if jsTrim searchQuery = "" then []
  else if (lexicalPass searchQuery images).length = 0 then
    if 0 < (allTagsDedup images).length then
      jsSortResults (semanticPass (expand searchQuery (allTagsDedup images)) images)
    else jsSortResults (lexicalPass searchQuery images)
  else jsSortResults (lexicalPass searchQuery images)

lemma foldl_pushIf {α β : Type} (p : α → Prop) [DecidablePred p] (f : α → β) :
    ∀ (l : List α) (init : List β),
      l.foldl (fun acc x => if p x then acc ++ [f x] else acc) init
        = init ++ (l.filter (fun x => decide (p x))).map f
  | [], init => by simp
  | x :: rest, init => by
    by_cases hx : p x
    · simp only [List.foldl_cons, if_pos hx, List.filter_cons,
        decide_eq_true hx, List.map_cons]
      rw [foldl_pushIf p f rest (init ++ [f x])]
      simp
    · simp only [List.foldl_cons, if_neg hx, List.filter_cons]
      rw [decide_eq_false hx]
      simpa using foldl_pushIf p f rest init

lemma lexicalPass_eq (query : String) (images : List ImageRecord) :
    lexicalPass query images
      = (images.filter (fun i => decide (0 < lexScore query i))).map
          (fun i => (⟨i, lexScore query i⟩ : SearchResult)) := by
  simpa using
    foldl_pushIf (fun i => 0 < lexScore query i)
      (fun i => (⟨i, lexScore query i⟩ : SearchResult)) images []

lemma semanticPass_eq (keywords : List String) (images : List ImageRecord) :
    semanticPass keywords images
      = (images.filter (fun i => decide (0 < (overlapTags keywords i).length))).map
          (fun i =>
            (⟨i, ((overlapTags keywords i).length : ℚ) / (keywords.length : ℚ)⟩ :
              SearchResult)) := by
  simpa using
    foldl_pushIf (fun i => 0 < (overlapTags keywords i).length)
      (fun i =>
        (⟨i, ((overlapTags keywords i).length : ℚ) / (keywords.length : ℚ)⟩ : SearchResult))
      images []

lemma mem_jsSortResults {r : SearchResult} {l : List SearchResult} :
    r ∈ jsSortResults l ↔ r ∈ l := List.mem_insertionSort simGE

lemma handleSearch_of_lex_ne (expand : String → List String → List String)
    (q : String) (images : List ImageRecord)
    (hq : jsTrim q ≠ "") (h : lexicalPass q images ≠ []) :
    handleSearch expand q images = jsSortResults (lexicalPass q images) := by
  unfold handleSearch
  rw [if_neg hq, if_neg (by simpa [List.length_eq_zero] using h)]

lemma handleSearch_of_lex_empty (expand : String → List String → List String)
    (q : String) (images : List ImageRecord)
    (hq : jsTrim q ≠ "") (h : lexicalPass q images = []) (ht : allTagsDedup images ≠ []) :
    handleSearch expand q images
      = jsSortResults (semanticPass (expand q (allTagsDedup images)) images) := by
  unfold handleSearch
  rw [if_neg hq, if_pos (by simp [h]), if_pos (by simpa [List.length_pos] using ht)]

lemma sorted_handleSearch (expand : String → List String → List String)
    (q : String) (images : List ImageRecord) :
    (handleSearch expand q images).Sorted simGE := by
  unfold handleSearch
  split
  · exact List.sorted_nil
  · split
    · split
      · exact List.sorted_insertionSort simGE _
      · exact List.sorted_insertionSort simGE _
    · exact List.sorted_insertionSort simGE _

/-- Asset A of the spec's search scenario: tagged `cat`, name without `cat`. -/
def assetA : ImageRecord := { id := some 1, fileName := "forest.jpg", tags := some [("cat")] }

/-- Asset B of the spec's search scenario: file name `cat_photo.jpg`, no tags. -/
def assetB : ImageRecord := { id := some 2, fileName := "cat_photo.jpg" }

/-- Asset C of the spec's search scenario: neither name nor tags match `cat`. -/
def assetC : ImageRecord := { id := some 3, fileName := "tree.jpg", tags := some [("dog")] }

/-- C4: the keyword pass scores `+0.8` on a file-name substring match and
`+1.0` on a tag substring match (both case-insensitive), collects exactly
the assets with positive score in collection order, the final result list
is sorted by descending similarity, and on the scenario
(A tagged `cat`, B named `cat_photo.jpg`, C neither) the query `cat`
returns A with score 1.0 before B with score 0.8, excluding C —
for every expansion oracle, since the fallback is not consulted. -/
theorem lexicalPass_spec :
    (∀ (q : String) (images : List ImageRecord),
        lexicalPass q images
          = (images.filter (fun i => decide (0 < lexScore q i))).map
              (fun i => (⟨i, lexScore q i⟩ : SearchResult))) ∧
      (∀ (q : String) (img : ImageRecord),
          lexScore q img
            = (if jsIncludes (jsToLower img.fileName) (jsToLower q) then (4 : ℚ) / 5 else 0)
              + (if (img.tags.getD []).any (fun t => jsIncludes (jsToLower t) (jsToLower q))
                  then 1 else 0)) ∧
      (∀ (expand : String → List String → List String) (q : String)
          (images : List ImageRecord), (handleSearch expand q images).Sorted simGE) ∧
      (∀ expand : String → List String → List String,
          handleSearch expand ("cat") [assetA, assetB, assetC]
            = [⟨assetA, 1⟩, ⟨assetB, 4 / 5⟩]) := by
  refine ⟨lexicalPass_eq, fun _ _ => rfl, sorted_handleSearch, ?_⟩
  intro expand
  rw [handleSearch_of_lex_ne expand ("cat") [assetA, assetB, assetC] (by decide) (by decide)]
  decide

lemma lexScore_values (q : String) (img : ImageRecord) :
    lexScore q img = 0 ∨ lexScore q img = 4 / 5 ∨ lexScore q img = 1 ∨
      lexScore q img = 9 / 5 := by
  unfold lexScore
  split <;> split <;> norm_num

/-- C2 (amended): assuming each asset's stored tag list is duplicate-free,
every similarity that `handleSearch` emits lies in `(0, 1.8]`; and an asset
whose file name and one of whose tags both contain the query receives the
lexical score `1.8`, which exceeds the claimed upper bound `1`. -/
theorem handleSearch_score_bounds (expand : String → List String → List String)
    (q : String) (images : List ImageRecord)
    (hnd : ∀ img ∈ images, (img.tags.getD []).Nodup) :
    (∀ r ∈ handleSearch expand q images, 0 < r.similarity ∧ r.similarity ≤ 9 / 5) ∧
      (∀ img : ImageRecord,
        jsIncludes (jsToLower img.fileName) (jsToLower q) = true →
        (img.tags.getD []).any (fun t => jsIncludes (jsToLower t) (jsToLower q)) = true →
        lexScore q img = 9 / 5) := by
  constructor
  · intro r hr
    by_cases hq : jsTrim q = ""
    · simp [handleSearch, hq] at hr
    · by_cases hlex : (lexicalPass q images).length = 0
      · by_cases htags : 0 < (allTagsDedup images).length
        · simp only [handleSearch, if_neg hq, if_pos hlex, if_pos htags] at hr
          rw [mem_jsSortResults, semanticPass_eq, List.mem_map] at hr
          obtain ⟨i, hifil, hri⟩ := hr
          rw [List.mem_filter] at hifil
          obtain ⟨hi, hpos⟩ := hifil
          set K := expand q (allTagsDedup images) with hK
          have ho : 0 < (overlapTags K i).length := of_decide_eq_true hpos
          have hnodup : (overlapTags K i).Nodup := (hnd i hi).filter _
          have hsub : overlapTags K i ⊆ K := by
            intro x hx
            have hx2 := (List.mem_filter.mp hx).2
            simpa using hx2
          have hlenle : (overlapTags K i).length ≤ K.length :=
            (List.subperm_of_subset hnodup hsub).length_le
          have hkpos : (0 : ℚ) < (K.length : ℚ) := by
            exact_mod_cast lt_of_lt_of_le ho hlenle
          have h0 : 0 < r.similarity := by
            rw [← hri]
            exact div_pos (by exact_mod_cast ho) hkpos
          have h1 : r.similarity ≤ 1 := by
            rw [← hri]
            rw [div_le_one hkpos]
            exact_mod_cast hlenle
          exact ⟨h0, le_trans h1 (by norm_num)⟩
        · simp only [handleSearch, if_neg hq, if_pos hlex, if_neg htags] at hr
          rw [mem_jsSortResults] at hr
          rw [List.length_eq_zero] at hlex
          rw [hlex] at hr
          simp at hr
      · simp only [handleSearch, if_neg hq, if_neg hlex] at hr
        rw [mem_jsSortResults, lexicalPass_eq, List.mem_map] at hr
        obtain ⟨i, hifil, hri⟩ := hr
        rw [List.mem_filter] at hifil
        have hpos : 0 < lexScore q i := of_decide_eq_true hifil.2
        have hbound : lexScore q i ≤ 9 / 5 := by
          rcases lexScore_values q i with h | h | h | h <;> rw [h] <;> norm_num
        rw [← hri]
        exact ⟨hpos, hbound⟩
  · intro img h1 h2
    unfold lexScore
    rw [if_pos h1, if_pos h2]
    norm_num

/-- Concrete asset whose file name and tag both contain `cat`. -/
def imgCatBoth : ImageRecord := { id := some 7, fileName := "cat.jpg", tags := some [("cat")] }

/-- C2 counterexample: searching `cat` over a collection holding one asset
whose file name and tag both contain `cat` produces similarity
`0.8 + 1.0 = 1.8`, outside the claimed interval `[0, 1]`. -/
theorem handleSearch_score_exceeds_one :
    handleSearch (fun _ _ => []) ("cat") [imgCatBoth]
        = [⟨imgCatBoth, 9 / 5⟩] ∧ ¬ ((9 : ℚ) / 5 ≤ 1) := by
  constructor
  · decide
  · norm_num

theorem handleSearch_score_bounds_witness :
    0 < (⟨imgCatBoth, (9 : ℚ) / 5⟩ : SearchResult).similarity ∧
      (⟨imgCatBoth, (9 : ℚ) / 5⟩ : SearchResult).similarity ≤ 9 / 5 :=
  (handleSearch_score_bounds (fun _ _ => []) ("cat") [imgCatBoth]
      (by decide)).1 ⟨imgCatBoth, (9 : ℚ) / 5⟩ (by decide)

/- ------------------------------------------------------------------ -/
/- Duplicates: `findDuplicates` from `src/App.tsx`                    -/
/- ------------------------------------------------------------------ -/

/-- Loop body of `findDuplicates`: an asset without `pHash` is skipped
(`continue`); otherwise the insertion-ordered `seenHashes` map is scanned
and the asset is pushed as a duplicate of the first representative at
Hamming distance strictly below 5 (`dist < 5`, `break`), with similarity
`1 - dist / 64`; with no such representative it becomes a new
representative (`seenHashes.set`). -/
def dupStep (acc : List SearchResult × List (String × ImageRecord)) (img : ImageRecord) :
    List SearchResult × List (String × ImageRecord) :=
  match img.pHash with
  | none => acc
  | some h =>
    match acc.2.find? (fun p => decide (hammingDistance p.1 h < 5)) with
    | some p => (acc.1 ++ [⟨img, 1 - ((hammingDistance p.1 h : ℚ) / 64)⟩], acc.2)
    | none => (acc.1, acc.2 ++ [(h, img)])

/-- Full `findDuplicates` pass: fold over the collection, returning the
pushed results together with the final representative map. -/
def findDupRun (images : List ImageRecord) :
    List SearchResult × List (String × ImageRecord) :=
  images.foldl dupStep ([], [])

/-- `findDuplicates` from `src/App.tsx` (the list passed to
`setSearchResults`; the source does not sort it). -/
def findDuplicates (images : List ImageRecord) : List SearchResult :=
  (findDupRun images).1

lemma find?_of_forall_not {α : Type} (p : α → Bool) :
    ∀ (pre : List α) (x : α) (post : List α),
      (∀ y ∈ pre, p y = false) → p x = true → (pre ++ x :: post).find? p = some x
  | [], x, post, _, hx => by simp [List.find?, hx]
  | a :: as, x, post, hpre, hx => by
    have ha := hpre a (List.mem_cons_self a as)
    simp only [List.cons_append, List.find?, ha]
    exact find?_of_forall_not p as x post (fun y hy => hpre y (List.mem_cons_of_mem a hy)) hx

/-- C3 (amended): in the duplicates view an asset with a fingerprint joins
an existing group exactly when its Hamming distance to some representative
is at most 4 — strictly below the threshold 5, not `≤ 5` as claimed; among
several qualifying representatives it attaches to the earliest-created one,
with similarity `1 - d / 64`; an asset without a fingerprint is skipped
without error. -/
theorem dupStep_spec (rs : List SearchResult) (seen : List (String × ImageRecord))
    (img : ImageRecord) :
    (img.pHash = none → dupStep (rs, seen) img = (rs, seen)) ∧
      (∀ h, img.pHash = some h → (∀ p ∈ seen, ¬ hammingDistance p.1 h ≤ 4) →
        dupStep (rs, seen) img = (rs, seen ++ [(h, img)])) ∧
      (∀ h pre p post, img.pHash = some h → seen = pre ++ p :: post →
        (∀ q ∈ pre, ¬ hammingDistance q.1 h ≤ 4) → hammingDistance p.1 h ≤ 4 →
        dupStep (rs, seen) img
          = (rs ++ [⟨img, 1 - ((hammingDistance p.1 h : ℚ) / 64)⟩], seen)) := by
  refine ⟨fun hnone => by simp [dupStep, hnone], ?_, ?_⟩
  · intro h hsome hnomatch
    have hfind : seen.find? (fun p => decide (hammingDistance p.1 h < 5)) = none := by
      rw [List.find?_eq_none]
      intro p hp
      simp only [decide_eq_true_eq]
      have := hnomatch p hp
      omega
    simp [dupStep, hsome, hfind]
  · intro h pre p post hsome hdecomp hpre hp
    have hfind : seen.find? (fun q => decide (hammingDistance q.1 h < 5)) = some p := by
      rw [hdecomp]
      refine find?_of_forall_not _ pre p post ?_ ?_
      · intro y hy
        have := hpre y hy
        simp only [decide_eq_false_iff_not]
        omega
      · simp only [decide_eq_true_eq]
        omega
    simp [dupStep, hsome, hfind]

/-- Representative asset carrying the all-zero fingerprint. -/
def imgRepA : ImageRecord :=
  { id := some 11, fileName := "a.jpg", pHash := some hash64zeros }

/-- Fingerprint at Hamming distance exactly 1 from the all-zero one. -/
def hashDist1 : String := ⟨'1' :: List.replicate 63 '0'⟩

/-- Asset whose fingerprint is at distance 1 from `imgRepA`'s. -/
def imgNear1 : ImageRecord :=
  { id := some 12, fileName := "b.jpg", pHash := some hashDist1 }

/-- Fingerprint at Hamming distance exactly 5 from the all-zero one. -/
def hashDist5 : String :=
  ⟨'1' :: '1' :: '1' :: '1' :: '1' :: List.replicate 59 '0'⟩

/-- Asset whose fingerprint is at distance exactly 5 from `imgRepA`'s. -/
def imgNear5 : ImageRecord :=
  { id := some 13, fileName := "c.jpg", pHash := some hashDist5 }

/-- C3 counterexample: two assets whose fingerprints are at Hamming
distance exactly 5.  The claim (`within Hamming distance ≤ 5`) would put
the second asset into the first one's group, but the source's strict
`dist < 5` test rejects it: the duplicate list stays empty and the second
asset opens a second group. -/
theorem dupStep_threshold_counterexample :
    hammingDistance hash64zeros hashDist5 = 5 ∧
      findDuplicates [imgRepA, imgNear5] = [] ∧
      (findDupRun [imgRepA, imgNear5]).2.length = 2 := by
  refine ⟨by decide, by decide, by decide⟩

theorem dupStep_spec_witness :
    dupStep ([], [(hash64zeros, imgRepA)]) imgNear1
      = ([⟨imgNear1, 1 - ((hammingDistance hash64zeros hashDist1 : ℚ) / 64)⟩],
          [(hash64zeros, imgRepA)]) :=
  (dupStep_spec [] [(hash64zeros, imgRepA)] imgNear1).2.2 hashDist1 []
    (hash64zeros, imgRepA) [] (by decide) rfl (by simp) (by decide)

/-- A duplicate result is justified by a representative in `seen`:
the matched representative's hash is at distance ≤ 4 from the result's
fingerprint and the similarity is `1 - d / 64`. -/
def GoodDup (seen : List (String × ImageRecord)) (r : SearchResult) : Prop :=
  ∃ p ∈ seen, ∃ hs, r.image.pHash = some hs ∧ hammingDistance p.1 hs ≤ 4 ∧
    r.similarity = 1 - ((hammingDistance p.1 hs : ℚ) / 64)

lemma dupStep_seen_sub (acc : List SearchResult × List (String × ImageRecord))
    (img : ImageRecord) : ∀ p ∈ acc.2, p ∈ (dupStep acc img).2 := by
  intro p hp
  unfold dupStep
  split
  · exact hp
  · split
    · exact hp
    · exact List.mem_append_left _ hp

lemma dupStep_preserves_good (acc : List SearchResult × List (String × ImageRecord))
    (img : ImageRecord) (hgood : ∀ r ∈ acc.1, GoodDup acc.2 r) :
    ∀ r ∈ (dupStep acc img).1, GoodDup (dupStep acc img).2 r := by
  intro r hr
  unfold dupStep at hr ⊢
  split at hr
  · exact hgood r hr
  · rename_i h hsome
    split at hr
    · rename_i p hfind
      rw [List.mem_append] at hr
      rcases hr with hr | hr
      · exact hgood r hr
      · rw [List.mem_singleton] at hr
        subst hr
        have hpmem : p ∈ acc.2 := List.mem_of_find?_eq_some hfind
        have hdist : hammingDistance p.1 h < 5 := by
          have := List.find?_some hfind
          simpa using this
        exact ⟨p, hpmem, h, hsome, by omega, rfl⟩
    · rename_i hfind
      obtain ⟨p, hp, hrest⟩ := hgood r hr
      exact ⟨p, List.mem_append_left _ hp, hrest⟩

lemma dupRun_good : ∀ (images : List ImageRecord)
    (acc : List SearchResult × List (String × ImageRecord)),
    (∀ r ∈ acc.1, GoodDup acc.2 r) →
    ∀ r ∈ (images.foldl dupStep acc).1, GoodDup (images.foldl dupStep acc).2 r
  | [], acc, hgood => hgood
  | img :: rest, acc, hgood => by
    rw [List.foldl_cons]
    exact dupRun_good rest (dupStep acc img) (dupStep_preserves_good acc img hgood)

lemma dupStep_count (acc : List SearchResult × List (String × ImageRecord))
    (img : ImageRecord) (x : ImageRecord) :
    ((dupStep acc img).1.map (fun r => r.image)).count x
        + ((dupStep acc img).2.map Prod.snd).count x
      ≤ (acc.1.map (fun r => r.image)).count x
        + (acc.2.map Prod.snd).count x + ([img].count x) := by
  unfold dupStep
  split
  · omega
  · split
    · simp only [List.map_append, List.count_append, List.map_cons, List.map_nil]
      omega
    · simp only [List.map_append, List.count_append, List.map_cons, List.map_nil]
      omega

lemma dupRun_count : ∀ (images : List ImageRecord)
    (acc : List SearchResult × List (String × ImageRecord)) (x : ImageRecord),
    ((images.foldl dupStep acc).1.map (fun r => r.image)).count x
        + ((images.foldl dupStep acc).2.map Prod.snd).count x
      ≤ (acc.1.map (fun r => r.image)).count x
        + (acc.2.map Prod.snd).count x + images.count x
  | [], acc, x => by simp
  | img :: rest, acc, x => by
    rw [List.foldl_cons]
    have h1 := dupRun_count rest (dupStep acc img) x
    have h2 := dupStep_count acc img x
    have hsplit : (img :: rest).count x = rest.count x + ([img].count x) := by
      simp only [List.count_cons, List.count_nil]
      omega
    omega

/-- C10: every duplicate emitted by the duplicates view carries similarity
`1 - d / 64` for the Hamming distance `d ≤ 4` to the representative it was
matched against (hence similarity strictly above `59/64 ≈ 0.92`), and — for
a collection of pairwise-distinct records, as delivered by the store — no
first-seen representative of a group ever appears in the result list. -/
theorem findDuplicates_invariants (images : List ImageRecord) (hnd : images.Nodup) :
    (∀ r ∈ findDuplicates images, ∃ p ∈ (findDupRun images).2, ∃ hs,
        r.image.pHash = some hs ∧ hammingDistance p.1 hs ≤ 4 ∧
        r.similarity = 1 - ((hammingDistance p.1 hs : ℚ) / 64) ∧
        (59 : ℚ) / 64 < r.similarity) ∧
      (∀ p ∈ (findDupRun images).2, p.2 ∉ (findDuplicates images).map (fun r => r.image)) := by
  constructor
  · intro r hr
    have hgood := dupRun_good images ([], []) (by intro r hr; simp at hr) r hr
    obtain ⟨p, hp, hs, hsome, hdist, hsim⟩ := hgood
    refine ⟨p, hp, hs, hsome, hdist, hsim, ?_⟩
    rw [hsim]
    have hc : ((hammingDistance p.1 hs : ℚ)) ≤ 4 := by exact_mod_cast hdist
    linarith
  · intro p hp hmem
    have hcount := dupRun_count images ([], []) p.2
    have h1 : 1 ≤ ((findDupRun images).1.map (fun r => r.image)).count p.2 := by
      rw [List.one_le_count_iff]
      exact hmem
    have h2 : 1 ≤ ((findDupRun images).2.map Prod.snd).count p.2 := by
      rw [List.one_le_count_iff]
      exact List.mem_map_of_mem Prod.snd hp
    have h3 : images.count p.2 ≤ 1 := List.nodup_iff_count_le_one.mp hnd p.2
    simp only [List.map_nil, List.count_nil] at hcount
    unfold findDupRun at h1 h2
    omega

theorem findDuplicates_invariants_witness :
    (∃ p ∈ (findDupRun [imgRepA, imgNear1]).2, ∃ hs,
        (⟨imgNear1, (63 : ℚ) / 64⟩ : SearchResult).image.pHash = some hs ∧
        hammingDistance p.1 hs ≤ 4 ∧
        (⟨imgNear1, (63 : ℚ) / 64⟩ : SearchResult).similarity
          = 1 - ((hammingDistance p.1 hs : ℚ) / 64) ∧
        (59 : ℚ) / 64 < (⟨imgNear1, (63 : ℚ) / 64⟩ : SearchResult).similarity) ∧
      imgRepA ∉ (findDuplicates [imgRepA, imgNear1]).map (fun r => r.image) :=
  ⟨(findDuplicates_invariants [imgRepA, imgNear1] (by decide)).1
      ⟨imgNear1, (63 : ℚ) / 64⟩ (by decide),
    (findDuplicates_invariants [imgRepA, imgNear1] (by decide)).2
      (hash64zeros, imgRepA) (by decide)⟩

/-- C5: the Gemini fallback runs only when the keyword pass found nothing
(first conjunct: any lexical hit short-circuits it); when it runs it passes
the query and the distinct set of all tags to the expansion service and
scores each asset as tag-overlap count over the size of the returned
subset, excluding zero-overlap assets (second and third conjuncts); an
empty returned subset yields an empty result set (fourth conjunct), as
does an entirely untagged collection, which skips the service call
(fifth conjunct). -/
theorem handleSearch_semantic_fallback_spec :
    (∀ (expand : String → List String → List String) (q : String)
        (images : List ImageRecord), jsTrim q ≠ "" → lexicalPass q images ≠ [] →
        handleSearch expand q images = jsSortResults (lexicalPass q images)) ∧
      (∀ (expand : String → List String → List String) (q : String)
          (images : List ImageRecord),
          jsTrim q ≠ "" → lexicalPass q images = [] → allTagsDedup images ≠ [] →
          handleSearch expand q images
            = jsSortResults (semanticPass (expand q (allTagsDedup images)) images)) ∧
      (∀ (keywords : List String) (images : List ImageRecord),
          semanticPass keywords images
            = (images.filter (fun i => decide (0 < (overlapTags keywords i).length))).map
                (fun i =>
                  (⟨i, ((overlapTags keywords i).length : ℚ) / (keywords.length : ℚ)⟩ :
                    SearchResult))) ∧
      (∀ images : List ImageRecord, semanticPass [] images = []) ∧
      (∀ (expand : String → List String → List String) (q : String)
          (images : List ImageRecord),
          jsTrim q ≠ "" → lexicalPass q images = [] → allTagsDedup images = [] →
          handleSearch expand q images = []) := by
  refine ⟨handleSearch_of_lex_ne, handleSearch_of_lex_empty, semanticPass_eq, ?_, ?_⟩
  · intro images
    rw [semanticPass_eq]
    have hover : ∀ i : ImageRecord, overlapTags [] i = [] := by
      intro i
      simp [overlapTags]
    simp [hover]
  · intro expand q images hq hlex htags
    unfold handleSearch
    rw [if_neg hq, if_pos (by simp [hlex]), if_neg (by simp [htags]), hlex]
    rfl

/-- Asset tagged `dog`, with a file name that does not match `zzz`. -/
def imgDogOnly : ImageRecord :=
  { id := some 9, fileName := "photo1.jpg", tags := some [("dog")] }

/-- Expansion oracle that judges `dog` relevant. -/
def expandDog : String → List String → List String := fun _ _ => [("dog")]

theorem handleSearch_semantic_fallback_witness :
    handleSearch expandDog ("zzz") [imgDogOnly] = [⟨imgDogOnly, 1⟩] := by
  rw [handleSearch_semantic_fallback_spec.2.1 expandDog ("zzz") [imgDogOnly]
      (by decide) (by decide) (by decide)]
  decide

/- ------------------------------------------------------------------ -/
/- Indexing pipeline: `processFileList` from `src/App.tsx`            -/
/- ------------------------------------------------------------------ -/

/-- A browser `File` as `processFileList` consumes it: `name`, `size`,
`lastModified`, the MIME `type`, and `webkitRelativePath` (empty when the
file did not come from a directory picker). -/
structure JsFile where
  name : String
  relativePath : String := ""
  size : Nat := 0
  lastModified : Nat := 0
  mimeType : String := ""
deriving DecidableEq, Repr

/-- Mutable state threaded through the indexing loop: the Dexie table in
insertion (= primary-key) order, the next auto-increment id, and
`processedCount`. -/
structure PState where
  db : List ImageRecord
  nextId : Nat
  processedCount : Nat
deriving DecidableEq, Repr

/-- What happened to one file of the batch: skipped as already present,
failed (thumbnailing threw), or persisted — recording the stored record
and whether the semantic-tagging collaborator was consulted. -/
inductive ItemOutcome where
  | skipped : ItemOutcome
  | failed : ItemOutcome
  | persisted : ImageRecord → Bool → ItemOutcome
deriving DecidableEq, Repr

/-- The non-skip path of the loop body: thumbnail the file (the canvas
pipeline `generateThumbnail` is the oracle `thumbO`; `none` models a
decode failure caught by the `try`), fingerprint it (`phashO`, for
`calculatePHash`), call the tagging collaborator only while
`processedCount < 5` (`tagO`, for `analyzeImageSemantics`), and
`db.images.add` the record with the next auto-increment id;
`filePath` falls back to `file.name` when `webkitRelativePath` is
absent/empty. -/
def processNewItem (thumbO : JsFile → Option (String × Nat × Nat)) (phashO : String → String)
    (tagO : String → List String) (s : PState) (f : JsFile) : PState × ItemOutcome :=
  match thumbO f with
  | none => (⟨s.db, s.nextId, s.processedCount + 1⟩, .failed)
  | some (thumb, w, h) =>
    let newRec : ImageRecord :=
      { id := some s.nextId, fileName := f.name,
        filePath := if f.relativePath = "" then f.name else f.relativePath,
        fileSize := f.size, lastModified := f.lastModified, width := w, height := h,
        thumbnail := thumb, pHash := some (phashO thumb),
        tags := some (if s.processedCount < 5 then tagO thumb else []) }
    (⟨s.db ++ [newRec], s.nextId + 1, s.processedCount + 1⟩,
      .persisted newRec (decide (s.processedCount < 5)))

/-- One iteration of the `for (const file of files)` loop:
`db.images.where('fileName').equals(file.name).first()` returns the
earliest-stored record with the same file name (Dexie orders equal index
keys by primary key); the file is skipped when that record also matches
on size, otherwise the item is processed afresh. -/
def processStep (thumbO : JsFile → Option (String × Nat × Nat)) (phashO : String → String)
    (tagO : String → List String) (s : PState) (f : JsFile) : PState × ItemOutcome :=
  match s.db.find? (fun r => decide (r.fileName = f.name)) with
  | some e =>
    if e.fileSize = f.size then (⟨s.db, s.nextId, s.processedCount + 1⟩, .skipped)
    else processNewItem thumbO phashO tagO s f
  | none => processNewItem thumbO phashO tagO s f

/-- The whole indexing loop, also returning the per-item outcomes in batch
order. -/
def processFiles (thumbO : JsFile → Option (String × Nat × Nat)) (phashO : String → String)
    (tagO : String → List String) : PState → List JsFile → PState × List ItemOutcome
  | s, [] => (s, [])
  | s, f :: fs =>
    let step := processStep thumbO phashO tagO s f
    let rest := processFiles thumbO phashO tagO step.1 fs
    (rest.1, step.2 :: rest.2)

/-- `processFileList` from `src/App.tsx`: keep only files whose MIME type
starts with `image/`; an empty batch surfaces an error message and
processes nothing (`none`); otherwise run the loop with a fresh
`processedCount` of 0 over the current table. -/
def processFileList (thumbO : JsFile → Option (String × Nat × Nat)) (phashO : String → String)
    (tagO : String → List String) (db0 : List ImageRecord) (n0 : Nat)
    (fileList : List JsFile) : Option (PState × List ItemOutcome) :=
  if (fileList.filter (fun f => jsStartsWith f.mimeType ("image/"))).length = 0 then none
  else
    some (processFiles thumbO phashO tagO ⟨db0, n0, 0⟩
      (fileList.filter (fun f => jsStartsWith f.mimeType ("image/"))))

/-- C9 (amended): an incoming file is skipped — leaving the table
unchanged — exactly when the *earliest-stored* record with the same
`fileName` exists and also matches on `fileSize`; a matching record that
is not the first one with that name is not consulted. -/
theorem processStep_skip_iff (thumbO : JsFile → Option (String × Nat × Nat))
    (phashO : String → String) (tagO : String → List String) (s : PState) (f : JsFile) :
    ((processStep thumbO phashO tagO s f).2 = .skipped ↔
        ∃ e, s.db.find? (fun r => decide (r.fileName = f.name)) = some e ∧
          e.fileSize = f.size) ∧
      ((processStep thumbO phashO tagO s f).2 = .skipped →
        (processStep thumbO phashO tagO s f).1.db = s.db) := by
  have hnew : ∀ s' f', (processNewItem thumbO phashO tagO s' f').2 ≠ ItemOutcome.skipped := by
    intro s' f'
    unfold processNewItem
    split
    · simp
    · simp
  unfold processStep
  split
  · rename_i e hfind
    by_cases hsize : e.fileSize = f.size
    · rw [if_pos hsize]
      exact ⟨⟨fun _ => ⟨e, hfind, hsize⟩, fun _ => rfl⟩, fun _ => rfl⟩
    · rw [if_neg hsize]
      constructor
      · constructor
        · intro hk
          exact absurd hk (hnew s f)
        · rintro ⟨e', he', hs'⟩
          rw [hfind] at he'
          cases he'
          exact absurd hs' hsize
      · intro hk
        exact absurd hk (hnew s f)
  · rename_i hfind
    constructor
    · constructor
      · intro hk
        exact absurd hk (hnew s f)
      · rintro ⟨e', he', _⟩
        rw [hfind] at he'
        cases he'
    · intro hk
      exact absurd hk (hnew s f)

/-- Thumbnail oracle used in concrete runs: decoding always succeeds. -/
def thumbW : JsFile → Option (String × Nat × Nat) := fun f => some ((f.name), 8, 8)

/-- Fingerprint oracle used in concrete runs. -/
def phashW : String → String := fun _ => ("h")

/-- Tagging oracle used in concrete runs. -/
def tagW : String → List String := fun _ => [("x")]

/-- Concrete image file with the given name and size. -/
def mkFileW (n : String) (sz : Nat) : JsFile :=
  { name := n, size := sz, mimeType := ("image/png") }

/-- C9 counterexample: index `a.jpg` of size 100, then `a.jpg` of size 200
(not skipped: the earliest `a.jpg` record has size 100), and then `a.jpg`
of size 200 again.  A stored record now matches the third file on both
name and size, so the claim requires a skip — but Dexie's
`.where('fileName').first()` still returns the size-100 record, the size
test fails, and the file is re-processed (outcome not `skipped`, a third
record is added). -/
theorem processFileList_skip_counterexample :
    ((processFileList thumbW phashW tagW [] 1
          [mkFileW ("a.jpg") 100, mkFileW ("a.jpg") 200]).map
        (fun pr => pr.1.db.map (fun r => (r.fileName, r.fileSize))))
        = some [(("a.jpg"), 100), (("a.jpg"), 200)] ∧
      ((processFileList thumbW phashW tagW [] 1
          [mkFileW ("a.jpg") 100, mkFileW ("a.jpg") 200, mkFileW ("a.jpg") 200]).map
        (fun pr => pr.2[2]?)) ≠ some (some ItemOutcome.skipped) ∧
      ((processFileList thumbW phashW tagW [] 1
          [mkFileW ("a.jpg") 100, mkFileW ("a.jpg") 200, mkFileW ("a.jpg") 200]).map
        (fun pr => pr.1.db.length)) = some 3 := by
  refine ⟨by decide, by decide, by decide⟩

/-- Record already stored for the skip witness. -/
def recSkipW : ImageRecord := { id := some 1, fileName := ("a.jpg"), fileSize := 100 }

/-- Store state holding exactly `recSkipW`. -/
def sSkipW : PState := ⟨[recSkipW], 2, 0⟩

theorem processStep_skip_iff_witness :
    (processStep thumbW phashW tagW sSkipW (mkFileW ("a.jpg") 100)).1.db = sSkipW.db :=
  (processStep_skip_iff thumbW phashW tagW sSkipW (mkFileW ("a.jpg") 100)).2 (by decide)

lemma processStep_count (thumbO : JsFile → Option (String × Nat × Nat))
    (phashO : String → String) (tagO : String → List String) (s : PState) (f : JsFile) :
    (processStep thumbO phashO tagO s f).1.processedCount = s.processedCount + 1 := by
  unfold processStep processNewItem
  split
  · split
    · rfl
    · split <;> rfl
  · split <;> rfl

lemma processFiles_outcome (thumbO : JsFile → Option (String × Nat × Nat))
    (phashO : String → String) (tagO : String → List String) :
    ∀ (files : List JsFile) (s : PState) (i : Nat) (r : ImageRecord) (c : Bool),
      (processFiles thumbO phashO tagO s files).2[i]? = some (.persisted r c) →
      (c = true ↔ s.processedCount + i < 5) ∧ (¬ s.processedCount + i < 5 → r.tags = some [])
  | [], s, i, r, c, h => by simp [processFiles] at h
  | f :: fs, s, 0, r, c, h => by
    simp only [processFiles, List.getElem?_cons_zero, Option.some.injEq] at h
    unfold processStep processNewItem at h
    split at h
    · split at h
      · simp at h
      · split at h
        · simp at h
        · simp only [] at h
          obtain ⟨hr, hc⟩ := ItemOutcome.persisted.inj h
          constructor
          · rw [← hc, Nat.add_zero, decide_eq_true_iff]
          · intro h5
            rw [Nat.add_zero] at h5
            rw [← hr]
            simp [if_neg h5]
    · split at h
      · simp at h
      · simp only [] at h
        obtain ⟨hr, hc⟩ := ItemOutcome.persisted.inj h
        constructor
        · rw [← hc, Nat.add_zero, decide_eq_true_iff]
        · intro h5
          rw [Nat.add_zero] at h5
          rw [← hr]
          simp [if_neg h5]
  | f :: fs, s, i + 1, r, c, h => by
    simp only [processFiles, List.getElem?_cons_succ] at h
    have ih := processFiles_outcome thumbO phashO tagO fs
      (processStep thumbO phashO tagO s f).1 i r c h
    rw [processStep_count] at ih
    have harith : s.processedCount + 1 + i = s.processedCount + (i + 1) := by omega
    rw [harith] at ih
    exact ih

/-- C7: in every indexing run, the semantic-tagging collaborator is
consulted only for items at batch positions 0–4, and every item persisted
at a later position is stored with an empty tag set.  (`processedCount`
also advances on skipped and failed items, so the budget counts batch
positions.) -/
theorem processFileList_tag_budget (thumbO : JsFile → Option (String × Nat × Nat))
    (phashO : String → String) (tagO : String → List String)
    (db0 : List ImageRecord) (n0 : Nat) (fileList : List JsFile)
    (st : PState) (outs : List ItemOutcome) (i : Nat) (r : ImageRecord) (c : Bool)
    (hrun : processFileList thumbO phashO tagO db0 n0 fileList = some (st, outs))
    (hi : outs[i]? = some (.persisted r c)) :
    (c = true → i < 5) ∧ (5 ≤ i → c = false ∧ r.tags = some []) := by
  unfold processFileList at hrun
  split at hrun
  · cases hrun
  · injection hrun with hrun
    have htrace : outs = (processFiles thumbO phashO tagO ⟨db0, n0, 0⟩
        (fileList.filter (fun f => jsStartsWith f.mimeType ("image/")))).2 := by
      rw [hrun]
    rw [htrace] at hi
    have h := processFiles_outcome thumbO phashO tagO _ _ i r c hi
    have h' : (c = true ↔ 0 + i < 5) ∧ (¬ 0 + i < 5 → r.tags = some []) := h
    constructor
    · intro hc
      have := h'.1.mp hc
      omega
    · intro h5
      have hcf : c = false := by
        cases c
        · rfl
        · have := h'.1.mp rfl
          omega
      exact ⟨hcf, h'.2 (by omega)⟩

/-- Six distinct image files for a concrete indexing run. -/
def files6W : List JsFile :=
  [mkFileW ("f0") 10, mkFileW ("f1") 11, mkFileW ("f2") 12,
    mkFileW ("f3") 13, mkFileW ("f4") 14, mkFileW ("f5") 15]

/-- The record that the concrete run persists for the sixth file. -/
def rec5W : ImageRecord :=
  { id := some 6, fileName := ("f5"), filePath := ("f5"), fileSize := 15,
    lastModified := 0, width := 8, height := 8, thumbnail := ("f5"),
    pHash := some ("h"), tags := some [] }

/-- Final state of the concrete six-file run. -/
def stW : PState := (processFiles thumbW phashW tagW ⟨[], 1, 0⟩ files6W).1

/-- Outcome trace of the concrete six-file run. -/
def traceW : List ItemOutcome := (processFiles thumbW phashW tagW ⟨[], 1, 0⟩ files6W).2

theorem processFileList_tag_budget_witness :
    (false = true → 5 < 5) ∧ (5 ≤ 5 → false = false ∧ rec5W.tags = some []) :=
  processFileList_tag_budget thumbW phashW tagW [] 1 files6W stW traceW 5 rec5W false
    (by rfl) (by decide)
